import Mathlib

/-!
Verification of the tensor core of the `burn` repository against its
natural-language specification.

The shallow embedding below models tensors as a shape (list of dimension
sizes) together with a flat row-major data buffer, exactly as the spec's
data model prescribes ("a flattened, row-major buffer of elements ...
paired with a Shape").  Default trait methods present in
`src/burn-tensor/src/tensor/ops/base.rs` (`arange`, `repeat`, `transpose`)
are translated from that source.  Backend primitives that the source only
declares (`index_assign`, `swap_dims`, `empty`, `embedding`,
`embedding_backward`) and the differentiable decorator / backward engine
(only its test is shown) are modelled from the spec, as marked on each
definition.
-/

namespace Burn

/-- A tensor: dimension sizes plus a flat row-major buffer of elements.
Elements are modelled as integers (all concrete values appearing in the
repository's shown tests are exactly representable). -/
structure Tensor where
  shape : List Nat
  data : List Int
deriving DecidableEq, Repr

/-- A tensor is valid when its buffer length matches its shape's element
count. -/
def Tensor.valid (t : Tensor) : Prop := t.data.length = t.shape.prod

instance (t : Tensor) : Decidable t.valid := by
  unfold Tensor.valid; infer_instance

/-- Row-major flattening of a multi-index against a shape. -/
def flatten : List Nat → List Nat → Nat
  | [], _ => 0
  | _ :: ss, is =>
    match is with
    | [] => 0
    | i :: is => i * ss.prod + flatten ss is

/-- Inverse of `flatten`: recover a multi-index from a flat position. -/
def unflatten : List Nat → Nat → List Nat
  | [], _ => []
  | _ :: ss, p => (p / ss.prod) :: unflatten ss (p % ss.prod)

/-- A multi-index is valid for a shape when it has the same rank and each
component is within its dimension. -/
def validIdx : List Nat → List Nat → Bool
  | [], [] => true
  | s :: ss, i :: is => decide (i < s) && validIdx ss is
  | _, _ => false

/-- Element access: read the buffer at the row-major position of `idx`. -/
def Tensor.get (t : Tensor) (idx : List Nat) : Int :=
  t.data.getD (flatten t.shape idx) 0

/-- A rectangular region: one half-open range `(start, stop)` per dimension. -/
def inRegion : List (Nat × Nat) → List Nat → Bool
  | [], [] => true
  | r :: rs, i :: is => decide (r.1 ≤ i) && decide (i < r.2) && inRegion rs is
  | _, _ => false

/-- The position of `idx` relative to the region's start corner. -/
def offsetIdx (ranges : List (Nat × Nat)) (idx : List Nat) : List Nat :=
  List.zipWith (fun r i => i - r.1) ranges idx

/-- Modelled from the spec: `index_assign` is a backend primitive only
declared in `src/burn-tensor/src/tensor/ops/base.rs`; the spec states it
"returns a new tensor equal to the receiver except inside the region,
which is overwritten by `value`".  Implemented on the flat row-major
buffer: every position whose multi-index lies in the region takes the
corresponding element of `value`, every other position keeps the
receiver's element. -/
def index_assign (t : Tensor) (ranges : List (Nat × Nat)) (v : Tensor) : Tensor :=
  ⟨t.shape, (List.range t.data.length).map fun p =>
    let idx := unflatten t.shape p
    if inRegion ranges idx then v.get (offsetIdx ranges idx) else t.data.getD p 0⟩

/-- Modelled from the spec: the `empty` backend primitive of
`src/burn-tensor/src/tensor/ops/base.rs` allocates a tensor of the given
shape with unspecified contents; the unspecified contents are modelled by
an explicit `fill` parameter. -/
def emptyT (shape : List Nat) (fill : Int) : Tensor :=
  ⟨shape, List.replicate shape.prod fill⟩

/-- Translated from the default `repeat` of
`src/burn-tensor/src/tensor/ops/base.rs`: panic (modelled as
`Except.error`) when the target dimension's size is not 1 (or when `dim`
is out of bounds, where the Rust array access itself panics); otherwise
allocate an empty tensor with the target dimension resized to `times` and
`index_assign` the input once per position `i` with the range `i..i+1` on
dimension `dim` and the full range on every other dimension. -/
def repeatT (t : Tensor) (dim times : Nat) (fill : Int) : Except String Tensor :=
  if dim < t.shape.length then
    if t.shape.getD dim 0 ≠ 1 then .error "Can only repeat dimension with dim=1"
    else
      let shape := t.shape.set dim times
      let indexesSelectAll := shape.map fun s => (0, s)
      .ok ((List.range times).foldl
        (fun acc i => index_assign acc (indexesSelectAll.set dim (i, i + 1)) t)
        (emptyT shape fill))
  else .error "index out of bounds"

/-- Translated from the default `arange` of
`src/burn-tensor/src/tensor/ops/base.rs`: the shape is
`[range.end - range.start]` (an unsigned subtraction that panics when
`end < start`, modelled as `Except.error`) and the data is each position
of the range converted to an element. -/
def arange (start stop : Nat) : Except String Tensor :=
  if start ≤ stop then
    .ok ⟨[stop - start], (List.range (stop - start)).map fun i => ((start + i : Nat) : Int)⟩
  else .error "attempt to subtract with overflow"

/-- Modelled from the spec: `swap_dims` is a backend primitive only
declared in `src/burn-tensor/src/tensor/ops/base.rs`; it exchanges two
dimensions, so the output shape swaps the two sizes and the element at a
multi-index is the input's element at the index with the two components
swapped. -/
def swap_dims (t : Tensor) (d1 d2 : Nat) : Tensor :=
  let shape := (t.shape.set d1 (t.shape.getD d2 0)).set d2 (t.shape.getD d1 0)
  ⟨shape, (List.range shape.prod).map fun p =>
    let idx := unflatten shape p
    t.get ((idx.set d1 (idx.getD d2 0)).set d2 (idx.getD d1 0))⟩

/-- Translated from the default `transpose` of
`src/burn-tensor/src/tensor/ops/base.rs`: `Self::swap_dims(tensor, D - 2,
D - 1)`, where the unsigned subtraction `D - 2` panics for rank `D < 2`
(modelled as `Except.error`). -/
def transpose (t : Tensor) : Except String Tensor :=
  if 2 ≤ t.shape.length then
    .ok (swap_dims t (t.shape.length - 2) (t.shape.length - 1))
  else .error "attempt to subtract with overflow"

/-- Elementwise addition (used by the backward engine's fan-out
accumulation; the spec sums delivered gradient contributions). -/
def tadd (a b : Tensor) : Tensor := ⟨a.shape, List.zipWith (· + ·) a.data b.data⟩

/-- Elementwise negation. -/
def tneg (a : Tensor) : Tensor := ⟨a.shape, a.data.map (- ·)⟩

/-- Elementwise multiplication. -/
def tmul (a b : Tensor) : Tensor := ⟨a.shape, List.zipWith (· * ·) a.data b.data⟩

/-- Modelled from the spec: a rank-2 matrix product kernel (the concrete
kernel is backend-specific and out of the spec's scope; the backward
engine only needs its existence). -/
def matmulT (a b : Tensor) : Tensor :=
  let k := a.shape.getD 1 0
  let n := b.shape.getD 1 0
  ⟨[a.shape.getD 0 0, n], (List.range (a.shape.getD 0 0 * n)).map fun p =>
    (((List.range k).map fun t =>
      a.data.getD (p / n * k + t) 0 * b.data.getD (t * n + p % n) 0)).sum⟩

/-- Rank-2 transpose as a total function (used inside captured backward
functions for `matmul`, per the spec: "returns gradients via transposed
matrix products"). -/
def transpose2 (a : Tensor) : Tensor :=
  let m := a.shape.getD 0 0
  let n := a.shape.getD 1 0
  ⟨[n, m], (List.range (n * m)).map fun p => a.data.getD (p % m * n + p / m) 0⟩

/-- All-ones tensor of a given shape (the backward engine's implicit seed
gradient). -/
def onesT (shape : List Nat) : Tensor := ⟨shape, List.replicate shape.prod 1⟩

/-- An integer-backend tensor: dimension sizes plus a flat row-major
buffer of indices. -/
structure IdxTensor where
  shape : List Nat
  data : List Nat
deriving DecidableEq, Repr

/-- Modelled from the spec: `embedding` is only declared in
`src/burn-tensor/src/tensor/ops/base.rs`; it gathers rows of a 2-D weight
tensor using a 2-D integer index tensor, producing a 3-D output with one
row vector per index, batched by the index tensor's own two dimensions. -/
def embedding (w : Tensor) (ix : IdxTensor) : Tensor :=
  let d := w.shape.getD 1 0
  ⟨ix.shape ++ [d],
    (ix.data.map fun v => (List.range d).map fun c => w.data.getD (v * d + c) 0).flatten⟩

/-- Add a length-`d` row into the accumulator's row `v` (rows live at flat
positions `v*d .. v*d+d`). -/
def addRowAt (acc : List Int) (d v : Nat) (row : List Int) : List Int :=
  (List.range acc.length).map fun p =>
    if v * d ≤ p ∧ p < v * d + d then acc.getD p 0 + row.getD (p - v * d) 0
    else acc.getD p 0

/-- Modelled from the spec: `embedding_backward` is only declared in
`src/burn-tensor/src/tensor/ops/base.rs`; the spec describes it as a
scatter-add — "given an upstream gradient shaped like the embedding
output, produce a gradient shaped like the weight tensor by summing, for
every index occurrence, the corresponding gradient row into that weight
row — duplicate indices must accumulate, not overwrite". -/
def embedding_backward (w : Tensor) (grad : Tensor) (ix : IdxTensor) : Tensor :=
  let d := w.shape.getD 1 0
  ⟨w.shape, ix.data.enum.foldl
    (fun acc pv =>
      addRowAt acc d pv.2 ((List.range d).map fun c => grad.data.getD (pv.1 * d + c) 0))
    (List.replicate w.shape.prod 0)⟩

/-- Modelled from the spec: a graph node's recorded operation, as "tagged
variants (one variant per operation kind) carrying only the minimal
forward-pass data needed" — inputs are node identities (arena indices),
and `mulT`/`matmul` capture the two forward input values the spec says
their backward functions close over. -/
inductive Op where
  | leaf : Op
  | neg : Nat → Op
  | addT : Nat → Nat → Op
  | mulT : Nat → Nat → Tensor → Tensor → Op
  | matmul : Nat → Nat → Tensor → Tensor → Op
deriving DecidableEq, Repr

/-- The identities of a node's recorded input nodes. -/
def Op.inputs : Op → List Nat
  | .leaf => []
  | .neg i => [i]
  | .addT l r => [l, r]
  | .mulT l r _ _ => [l, r]
  | .matmul l r _ _ => [l, r]

/-- Modelled from the spec: the computation graph is "an arena of nodes
indexed by a dense integer identity, with nodes referencing each other by
index"; a node's identity is its list position. -/
abbrev Graph := List Op

/-- The node recorded under identity `i` (identities beyond the arena are
treated as absent leaves). -/
def nodeAt (g : Graph) (i : Nat) : Op := g.getD i .leaf

/-- Every node's inputs were created before it (the decorator fully
creates a node before returning its handle, so inputs have smaller
identities). -/
def wellFormed (g : Graph) : Bool :=
  (List.range g.length).all fun i => (nodeAt g i).inputs.all fun j => decide (j < i)

/-- Whether identity `i` is a leaf (a true input/parameter or a detached
node): it has no recorded backward function. -/
def isLeafAt (g : Graph) (i : Nat) : Bool := nodeAt g i == Op.leaf

/-- Modelled from the spec: each node's backward function maps one
upstream gradient to one gradient contribution per input ("for `mul` it
captures the two input tensors so that given an upstream gradient `g` it
can return `(g * rhs, g * lhs)`; for `matmul` it captures inputs and
returns gradients via transposed matrix products; for `neg` it negates
`g`; for `add` it passes `g` through unchanged to both inputs"). -/
def Op.backstep : Op → Tensor → List (Nat × Tensor)
  | .leaf, _ => []
  | .neg i, gout => [(i, tneg gout)]
  | .addT l r, gout => [(l, gout), (r, gout)]
  | .mulT l r lv rv, gout => [(l, tmul gout rv), (r, tmul gout lv)]
  | .matmul l r lv rv, gout =>
    [(l, matmulT gout (transpose2 rv)), (r, matmulT (transpose2 lv) gout)]

/-- The gradients container: a mapping from node identity to its
accumulated gradient, populated during a backward pass. -/
abbrev GradMap := Nat → Option Tensor

/-- Deliver one gradient contribution to node `j`: a new contribution is
summed onto any contribution already collected there (fan-out reduction),
never overwriting it. -/
def deliver (grads : GradMap) (j : Nat) (t : Tensor) : GradMap :=
  fun k =>
    if k = j then some (match grads j with | none => t | some u => tadd u t)
    else grads k

/-- Discard a processed interior node's accumulated gradient (the spec:
the backward function's outputs are "delivered as contributions to each
input node, then discarded"). -/
def clearAt (grads : GradMap) (i : Nat) : GradMap :=
  fun k => if k = i then none else grads k

/-- Deliver a batch of contributions in order. -/
def deliverAll (grads : GradMap) : List (Nat × Tensor) → GradMap
  | [] => grads
  | p :: ps => deliverAll (deliver grads p.1 p.2) ps

/-- Modelled from the spec: visit one node of the backward traversal.  A
node with no collected contribution is skipped; a leaf keeps its final
accumulated gradient in the container ("its final accumulated gradient is
written into the gradients container under its identity and traversal
does not continue past it"); an interior node invokes its backward
function exactly once on the summed gradient, delivers the results to its
inputs, and discards its own entry. -/
def processNode (g : Graph) (i : Nat) (grads : GradMap) : GradMap :=
  match grads i with
  | none => grads
  | some gi =>
    match nodeAt g i with
    | .leaf => grads
    | op => deliverAll (clearAt grads i) (op.backstep gi)

/-- Process identities `i, i-1, ..., 0` in order.  Because every node's
inputs have smaller identities, descending identity order is a reverse
topological order: every node is visited only after all of its consumers
have been visited. -/
def runDown (g : Graph) : Nat → GradMap → GradMap
  | 0, grads => processNode g 0 grads
  | i + 1, grads => runDown g i (processNode g (i + 1) grads)

/-- The seed state: the root holds the caller-supplied (or implicit
all-ones) seed gradient, every other identity holds nothing. -/
def initGrads (root : Nat) (seed : Tensor) : GradMap :=
  fun k => if k = root then some seed else none

/-- Modelled from the spec: the backward engine (only its test
`src/burn-tensor/tests/tensor/grad/neg.rs` is shown).  Starting from a
designated root with a seed gradient, traverse the graph in reverse
topological order, sum all delivered contributions at each node, invoke
its backward function with the summed gradient, and deliver the results
to each input; the returned container maps leaf identities to their
accumulated gradients. -/
def backward (g : Graph) (root : Nat) (seed : Tensor) : GradMap :=
  runDown g root (initGrads root seed)

/-- Query a parameter's gradient after a pass: an explicit `Option`, per
the spec's `grad(tensor_identity, &GradientsContainer) -> Optional<Tensor>`. -/
def gradQuery (grads : GradMap) (ident : Nat) : Option Tensor := grads ident

/-- Modelled from the spec: `detach` "creates a brand-new leaf node
carrying the current tensor's value but with no recorded inputs, breaking
any backward path through it".  Returns the grown arena and the fresh
leaf's identity. -/
def detach (g : Graph) : Graph × Nat := (g ++ [Op.leaf], g.length)

/-- Bounded reachability along recorded input edges: `reachB g f root j`
holds when a path of at most `f` edges leads from `root` down to `j`. -/
def reachB (g : Graph) : Nat → Nat → Nat → Bool
  | 0, root, j => root == j
  | f + 1, root, j => root == j || (nodeAt g root).inputs.any fun k => reachB g f k j

/-- A node participates in the expression rooted at `root` when `root`
reaches it along recorded input edges (fuel `root` suffices on a
well-formed graph, where identities strictly decrease along edges). -/
def participates (g : Graph) (root j : Nat) : Bool := reachB g root root j

/-- Process `n` nodes of the backward traversal, starting at identity
`hi` and descending: `hi, hi - 1, ..., hi - n + 1`. -/
def procCount (g : Graph) : Nat → Nat → GradMap → GradMap
  | _, 0, grads => grads
  | hi, n + 1, grads => procCount g (hi - 1) n (processNode g hi grads)

/-- The gradients container just before the backward pass processes
identity `i`: the identities `root, root - 1, ..., i + 1` have been
processed. -/
def stateBefore (g : Graph) (root : Nat) (seed : Tensor) (i : Nat) : GradMap :=
  procCount g root (root - i) (initGrads root seed)

/-- The gradient contributions that a backward-function output list
delivers to node `t`, in delivery order. -/
def deliveredTo (l : List (Nat × Tensor)) (t : Nat) : List Tensor :=
  (l.filter fun p => p.1 == t).map Prod.snd

theorem validIdx_length {shape idx : List Nat} (h : validIdx shape idx = true) :
    idx.length = shape.length := by
  induction shape generalizing idx with
  | nil => cases idx with
    | nil => rfl
    | cons i is => simp [validIdx] at h
  | cons s ss ih => cases idx with
    | nil => simp [validIdx] at h
    | cons i is =>
      simp only [validIdx, Bool.and_eq_true] at h
      simp [ih h.2]

theorem flatten_lt {shape idx : List Nat} (h : validIdx shape idx = true) :
    flatten shape idx < shape.prod := by
  induction shape generalizing idx with
  | nil => cases idx with
    | nil => simp [flatten]
    | cons i is => simp [validIdx] at h
  | cons s ss ih => cases idx with
    | nil => simp [validIdx] at h
    | cons i is =>
      simp only [validIdx, Bool.and_eq_true, decide_eq_true_eq] at h
      have htail := ih h.2
      have h1 : i * ss.prod + flatten ss is < i * ss.prod + ss.prod :=
        Nat.add_lt_add_left htail _
      have h2 : i * ss.prod + ss.prod ≤ s * ss.prod := by
        calc i * ss.prod + ss.prod = (i + 1) * ss.prod := by ring
        _ ≤ s * ss.prod := Nat.mul_le_mul_right _ h.1
      calc flatten (s :: ss) (i :: is) = i * ss.prod + flatten ss is := rfl
      _ < s * ss.prod := lt_of_lt_of_le h1 h2
      _ = (s :: ss).prod := by simp

theorem unflatten_flatten {shape idx : List Nat} (h : validIdx shape idx = true) :
    unflatten shape (flatten shape idx) = idx := by
  induction shape generalizing idx with
  | nil => cases idx with
    | nil => rfl
    | cons i is => simp [validIdx] at h
  | cons s ss ih => cases idx with
    | nil => simp [validIdx] at h
    | cons i is =>
      simp only [validIdx, Bool.and_eq_true, decide_eq_true_eq] at h
      have htail := flatten_lt h.2
      have hP : 0 < ss.prod := Nat.lt_of_le_of_lt (Nat.zero_le _) htail
      have hdiv : (i * ss.prod + flatten ss is) / ss.prod = i := by
        rw [Nat.mul_comm i, Nat.mul_add_div hP, Nat.div_eq_of_lt htail]
        omega
      have hmod : (i * ss.prod + flatten ss is) % ss.prod = flatten ss is := by
        rw [Nat.mul_comm i, Nat.mul_add_mod, Nat.mod_eq_of_lt htail]
      simp only [flatten, unflatten]
      rw [hdiv, hmod, ih h.2]

theorem index_assign_shape (t : Tensor) (ranges : List (Nat × Nat)) (v : Tensor) :
    (index_assign t ranges v).shape = t.shape := rfl

theorem index_assign_valid {t : Tensor} (ht : t.valid) (ranges : List (Nat × Nat))
    (v : Tensor) : (index_assign t ranges v).valid := by
  simp [Tensor.valid, index_assign] at *
  exact ht

/-- Pointwise characterization of `index_assign` at any valid index. -/
theorem index_assign_get {t : Tensor} (ht : t.valid) {idx : List Nat}
    (hidx : validIdx t.shape idx = true) (ranges : List (Nat × Nat)) (v : Tensor) :
    (index_assign t ranges v).get idx =
      if inRegion ranges idx then v.get (offsetIdx ranges idx) else t.get idx := by
  have hlt : flatten t.shape idx < t.data.length := by
    rw [ht]; exact flatten_lt hidx
  have hshape : (index_assign t ranges v).shape = t.shape := rfl
  unfold Tensor.get
  rw [hshape]
  unfold index_assign
  simp only [List.getD_eq_getElem?_getD]
  rw [List.getElem?_map, List.getElem?_range hlt]
  simp only [Option.map_some', Option.getD_some]
  rw [unflatten_flatten hidx]
  split
  · simp [Tensor.get, List.getD_eq_getElem?_getD]
  · rfl

theorem getD_set_self {l : List Nat} {n : Nat} (a : Nat) (h : n < l.length) :
    (l.set n a).getD n 0 = a := by
  rw [List.getD_eq_getElem?_getD, List.getElem?_set_self (by simpa using h)]
  rfl

theorem inRegion_selectAll {shape idx : List Nat} (h : validIdx shape idx = true) :
    inRegion (shape.map fun s => (0, s)) idx = true := by
  induction shape generalizing idx with
  | nil => cases idx with
    | nil => rfl
    | cons i is => simp [validIdx] at h
  | cons s ss ih => cases idx with
    | nil => simp [validIdx] at h
    | cons i is =>
      simp only [validIdx, Bool.and_eq_true, decide_eq_true_eq] at h
      simp only [List.map_cons, inRegion, Bool.and_eq_true, decide_eq_true_eq]
      exact ⟨⟨Nat.zero_le _, h.1⟩, ih h.2⟩

theorem inRegion_selectAll_set {shape idx : List Nat} {dim j : Nat}
    (hdim : dim < shape.length) (hidx : validIdx shape idx = true) :
    (inRegion ((shape.map fun s => (0, s)).set dim (j, j + 1)) idx = true) ↔
      idx.getD dim 0 = j := by
  induction shape generalizing idx dim with
  | nil => simp at hdim
  | cons s ss ih => cases idx with
    | nil => simp [validIdx] at hidx
    | cons i is =>
      simp only [validIdx, Bool.and_eq_true, decide_eq_true_eq] at hidx
      cases dim with
      | zero =>
        simp only [List.map_cons, List.set_cons_zero, inRegion, Bool.and_eq_true,
          decide_eq_true_eq, List.getD_cons_zero]
        constructor
        · rintro ⟨⟨hji, hij⟩, -⟩; omega
        · rintro rfl
          exact ⟨⟨Nat.le_refl _, Nat.lt_succ_self _⟩, inRegion_selectAll hidx.2⟩
      | succ d =>
        simp only [List.map_cons, List.set_cons_succ, inRegion, Bool.and_eq_true,
          decide_eq_true_eq, List.getD_cons_succ]
        rw [ih (by simpa using hdim) hidx.2]
        constructor
        · rintro ⟨-, h2⟩; exact h2
        · intro h2; exact ⟨⟨Nat.zero_le _, hidx.1⟩, h2⟩

theorem offsetIdx_selectAll {shape idx : List Nat} (hlen : idx.length = shape.length) :
    offsetIdx (shape.map fun s => (0, s)) idx = idx := by
  induction shape generalizing idx with
  | nil => cases idx with
    | nil => rfl
    | cons i is => simp at hlen
  | cons s ss ih => cases idx with
    | nil => simp at hlen
    | cons i is =>
      simp only [List.length_cons, Nat.succ.injEq] at hlen
      simp only [List.map_cons, offsetIdx, List.zipWith_cons_cons, Nat.sub_zero]
      rw [show List.zipWith (fun r i => i - r.1) (ss.map fun s => (0, s)) is =
        offsetIdx (ss.map fun s => (0, s)) is from rfl, ih hlen]

theorem offsetIdx_selectAll_set {shape idx : List Nat} {dim j : Nat}
    (hdim : dim < shape.length) (hlen : idx.length = shape.length)
    (hj : idx.getD dim 0 = j) :
    offsetIdx ((shape.map fun s => (0, s)).set dim (j, j + 1)) idx = idx.set dim 0 := by
  induction shape generalizing idx dim with
  | nil => simp at hdim
  | cons s ss ih => cases idx with
    | nil => simp at hlen
    | cons i is =>
      simp only [List.length_cons, Nat.succ.injEq] at hlen
      cases dim with
      | zero =>
        simp only [List.getD_cons_zero] at hj
        subst hj
        simp only [List.map_cons, List.set_cons_zero, offsetIdx, List.zipWith_cons_cons,
          Nat.sub_self]
        rw [show List.zipWith (fun r i => i - r.1) (ss.map fun s => (0, s)) is =
          offsetIdx (ss.map fun s => (0, s)) is from rfl, offsetIdx_selectAll hlen]
      | succ d =>
        simp only [List.getD_cons_succ] at hj
        simp only [List.map_cons, List.set_cons_succ, offsetIdx, List.zipWith_cons_cons,
          Nat.sub_zero]
        rw [show List.zipWith (fun r i => i - r.1) ((ss.map fun s => (0, s)).set d (j, j + 1)) is
          = offsetIdx ((ss.map fun s => (0, s)).set d (j, j + 1)) is from rfl,
          ih (by simpa using hdim) hlen hj]

theorem validIdx_set_zero {shape idx : List Nat} {dim k : Nat}
    (h1 : shape.getD dim 0 = 1)
    (hidx : validIdx (shape.set dim k) idx = true) :
    validIdx shape (idx.set dim 0) = true := by
  induction shape generalizing idx dim with
  | nil =>
    cases idx with
    | nil => rfl
    | cons i is => simp [validIdx] at hidx
  | cons s ss ih => cases idx with
    | nil =>
      cases dim <;> simp [validIdx] at hidx
    | cons i is =>
      cases dim with
      | zero =>
        simp only [List.getD_cons_zero] at h1
        simp only [List.set_cons_zero] at hidx ⊢
        simp only [validIdx, Bool.and_eq_true, decide_eq_true_eq] at hidx ⊢
        exact ⟨by omega, hidx.2⟩
      | succ d =>
        simp only [List.getD_cons_succ] at h1
        simp only [List.set_cons_succ] at hidx ⊢
        simp only [validIdx, Bool.and_eq_true, decide_eq_true_eq] at hidx ⊢
        exact ⟨hidx.1, ih h1 hidx.2⟩

theorem validIdx_getD_lt {shape idx : List Nat} {dim : Nat}
    (hdim : dim < shape.length) (hidx : validIdx shape idx = true) :
    idx.getD dim 0 < shape.getD dim 0 := by
  induction shape generalizing idx dim with
  | nil => simp at hdim
  | cons s ss ih => cases idx with
    | nil => simp [validIdx] at hidx
    | cons i is =>
      simp only [validIdx, Bool.and_eq_true, decide_eq_true_eq] at hidx
      cases dim with
      | zero => simpa using hidx.1
      | succ d =>
        simp only [List.getD_cons_succ]
        exact ih (by simpa using hdim) hidx.2

theorem repeat_fold_invariant (t : Tensor) (dim k : Nat) (fill : Int)
    (ht : t.valid) (hdim : dim < t.shape.length) (h1 : t.shape.getD dim 0 = 1) :
    ∀ j : Nat,
      ((List.range j).foldl
          (fun acc i => index_assign acc
            (((t.shape.set dim k).map fun s => (0, s)).set dim (i, i + 1)) t)
          (emptyT (t.shape.set dim k) fill)).shape = t.shape.set dim k ∧
      ((List.range j).foldl
          (fun acc i => index_assign acc
            (((t.shape.set dim k).map fun s => (0, s)).set dim (i, i + 1)) t)
          (emptyT (t.shape.set dim k) fill)).valid ∧
      ∀ idx, validIdx (t.shape.set dim k) idx = true → idx.getD dim 0 < j →
        ((List.range j).foldl
            (fun acc i => index_assign acc
              (((t.shape.set dim k).map fun s => (0, s)).set dim (i, i + 1)) t)
            (emptyT (t.shape.set dim k) fill)).get idx = t.get (idx.set dim 0) := by
  intro j
  induction j with
  | zero =>
    refine ⟨rfl, by simp [Tensor.valid, emptyT], ?_⟩
    intro idx _ hlt
    omega
  | succ j ih =>
    rw [List.range_succ, List.foldl_append]
    obtain ⟨ihshape, ihvalid, ihget⟩ := ih
    refine ⟨by rw [List.foldl_cons, List.foldl_nil, index_assign_shape, ihshape], ?_, ?_⟩
    · rw [List.foldl_cons, List.foldl_nil]
      exact index_assign_valid ihvalid _ _
    · intro idx hvidx hlt
      rw [List.foldl_cons, List.foldl_nil]
      have hvidx2 : validIdx
          ((List.range j).foldl
            (fun acc i => index_assign acc
              (((t.shape.set dim k).map fun s => (0, s)).set dim (i, i + 1)) t)
            (emptyT (t.shape.set dim k) fill)).shape idx = true := by
        rw [ihshape]; exact hvidx
      rw [index_assign_get ihvalid hvidx2]
      have hdim2 : dim < (t.shape.set dim k).length := by
        simpa using hdim
      by_cases hcase : idx.getD dim 0 = j
      · rw [if_pos ((inRegion_selectAll_set hdim2 hvidx).mpr hcase)]
        rw [offsetIdx_selectAll_set hdim2
          ((validIdx_length hvidx).trans (by simp)) hcase]
      · rw [if_neg ?_]
        · exact ihget idx hvidx (by omega)
        · intro hmem
          exact hcase ((inRegion_selectAll_set hdim2 hvidx).mp hmem)

/-- C2: `repeat(t, dim, k)` on a tensor whose size along `dim` is 1
succeeds and returns a tensor whose shape is `t`'s shape with dimension
`dim` resized to `k`, and whose element at every valid index equals the
element of `t` at the same index with the `dim` component reset to 0
(i.e. every slice along `dim` equals the original size-1 slice); the
default implementation builds it by `index_assign` once per position on
an empty allocation, and the result holds for every fill of that
allocation. -/
theorem c2_repeat_singleton_correct (t : Tensor) (dim k : Nat) (fill : Int)
    (ht : t.valid) (hdim : dim < t.shape.length)
    (h1 : t.shape.getD dim 0 = 1) (hk : 1 ≤ k) :
    ∃ r, repeatT t dim k fill = Except.ok r ∧
      r.shape = t.shape.set dim k ∧ r.valid ∧
      ∀ idx, validIdx r.shape idx = true → r.get idx = t.get (idx.set dim 0) := by
  have hinv := repeat_fold_invariant t dim k fill ht hdim h1 k
  refine ⟨_, ?_, hinv.1, hinv.2.1, ?_⟩
  · unfold repeatT
    rw [if_pos hdim, if_neg (not_not_intro h1)]
  · intro idx hvidx
    rw [hinv.1] at hvidx
    refine hinv.2.2 idx hvidx ?_
    have := validIdx_getD_lt (by simpa using hdim) hvidx
    rwa [getD_set_self k hdim] at this

theorem c2_repeat_singleton_correct_witness :
    (Tensor.valid ⟨[1, 2], [5, 7]⟩ ∧ 0 < ([1, 2] : List Nat).length ∧
        ([1, 2] : List Nat).getD 0 0 = 1 ∧ 1 ≤ 3) ∧
      ∃ r, repeatT ⟨[1, 2], [5, 7]⟩ 0 3 9 = Except.ok r ∧
        r.shape = ([1, 2] : List Nat).set 0 3 ∧ r.valid ∧
        ∀ idx, validIdx r.shape idx = true →
          r.get idx = Tensor.get ⟨[1, 2], [5, 7]⟩ (idx.set 0 0) :=
  ⟨⟨by decide, by decide, by decide, by decide⟩,
    c2_repeat_singleton_correct ⟨[1, 2], [5, 7]⟩ 0 3 9
      (by decide) (by decide) (by decide) (by decide)⟩

/-- C1: for `A = [[1,7],[2,3]]` and `B = [[4,7],[2,3]]`, computing
`C = matmul(A, neg(B))`, then `D = neg(C)`, then running backward on `D`
yields a gradients container in which the gradient queried for `A` is
`[[11,5],[11,5]]` and the gradient queried for `B` is `[[3,3],[10,10]]`
(the scenario of `src/burn-tensor/tests/tensor/grad/neg.rs`). -/
theorem c1_end_to_end_neg_matmul_grads :
    gradQuery
        (backward
          [.leaf, .leaf, .neg 1,
            .matmul 0 2 ⟨[2, 2], [1, 7, 2, 3]⟩ (tneg ⟨[2, 2], [4, 7, 2, 3]⟩), .neg 3]
          4 (onesT [2, 2])) 0 =
      some ⟨[2, 2], [11, 5, 11, 5]⟩ ∧
    gradQuery
        (backward
          [.leaf, .leaf, .neg 1,
            .matmul 0 2 ⟨[2, 2], [1, 7, 2, 3]⟩ (tneg ⟨[2, 2], [4, 7, 2, 3]⟩), .neg 3]
          4 (onesT [2, 2])) 1 =
      some ⟨[2, 2], [3, 3, 10, 10]⟩ := by
  decide

/-- C6: calling `repeat` on a dimension whose size is not 1 fails fatally
with the source's panic message, before any output tensor is produced. -/
theorem c6_repeat_nonsingleton_fatal (t : Tensor) (dim k : Nat) (fill : Int)
    (hdim : dim < t.shape.length) (h1 : t.shape.getD dim 0 ≠ 1) :
    repeatT t dim k fill = Except.error "Can only repeat dimension with dim=1" := by
  unfold repeatT
  rw [if_pos hdim, if_pos h1]

theorem c6_repeat_nonsingleton_fatal_witness :
    (0 < ([2, 2] : List Nat).length ∧ ([2, 2] : List Nat).getD 0 0 ≠ 1) ∧
      repeatT ⟨[2, 2], [1, 2, 3, 4]⟩ 0 5 0 =
        Except.error "Can only repeat dimension with dim=1" :=
  ⟨by decide, c6_repeat_nonsingleton_fatal ⟨[2, 2], [1, 2, 3, 4]⟩ 0 5 0 (by decide) (by decide)⟩

/-- C8: `index_assign` returns a tensor of the receiver's shape whose
elements inside the region equal the corresponding elements of `value`
and whose elements outside the region equal the corresponding elements of
the receiver; the receiver itself is a pure value and is unchanged. -/
theorem c8_index_assign_region (t v : Tensor) (ranges : List (Nat × Nat))
    (idx : List Nat) (ht : t.valid) (hlen : ranges.length = t.shape.length)
    (hbound : ∀ d, d < ranges.length → (ranges.getD d (0, 0)).2 ≤ t.shape.getD d 0)
    (hv : v.shape = ranges.map fun r => r.2 - r.1)
    (hidx : validIdx t.shape idx = true) :
    (index_assign t ranges v).shape = t.shape ∧
      (index_assign t ranges v).valid ∧
      (index_assign t ranges v).get idx =
        (if inRegion ranges idx then v.get (offsetIdx ranges idx) else t.get idx) := by
  exact ⟨index_assign_shape t ranges v, index_assign_valid ht ranges v,
    index_assign_get ht hidx ranges v⟩

theorem c8_index_assign_region_witness :
    (Tensor.valid ⟨[2, 3], [1, 2, 3, 4, 5, 6]⟩ ∧
        ([(0, 2), (1, 2)] : List (Nat × Nat)).length = ([2, 3] : List Nat).length ∧
        (∀ d, d < ([(0, 2), (1, 2)] : List (Nat × Nat)).length →
          (([(0, 2), (1, 2)] : List (Nat × Nat)).getD d (0, 0)).2 ≤
            ([2, 3] : List Nat).getD d 0) ∧
        Tensor.shape ⟨[2, 1], [9, 8]⟩ =
          ([(0, 2), (1, 2)] : List (Nat × Nat)).map (fun r => r.2 - r.1) ∧
        validIdx [2, 3] [1, 1] = true) ∧
      (index_assign ⟨[2, 3], [1, 2, 3, 4, 5, 6]⟩ [(0, 2), (1, 2)] ⟨[2, 1], [9, 8]⟩).shape
          = [2, 3] ∧
      (index_assign ⟨[2, 3], [1, 2, 3, 4, 5, 6]⟩ [(0, 2), (1, 2)] ⟨[2, 1], [9, 8]⟩).valid ∧
      (index_assign ⟨[2, 3], [1, 2, 3, 4, 5, 6]⟩ [(0, 2), (1, 2)] ⟨[2, 1], [9, 8]⟩).get [1, 1]
          = (if inRegion [(0, 2), (1, 2)] [1, 1] then
              Tensor.get ⟨[2, 1], [9, 8]⟩ (offsetIdx [(0, 2), (1, 2)] [1, 1])
            else Tensor.get ⟨[2, 3], [1, 2, 3, 4, 5, 6]⟩ [1, 1]) :=
  ⟨⟨by decide, by decide, by decide, by decide, by decide⟩,
    c8_index_assign_region ⟨[2, 3], [1, 2, 3, 4, 5, 6]⟩ ⟨[2, 1], [9, 8]⟩
      [(0, 2), (1, 2)] [1, 1] (by decide) (by decide) (by decide) (by decide) (by decide)⟩

/-- C9: the default `transpose` computes the dimension indices `D - 2` and
`D - 1` and calls `swap_dims` with them, so for rank at least 2 it equals
`swap_dims t (D - 2) (D - 1)`, while for rank 0 or 1 the unsigned
subtraction underflows and the call fails instead of returning a tensor. -/
theorem c9_transpose_default (t : Tensor) :
    (2 ≤ t.shape.length →
      transpose t =
        Except.ok (swap_dims t (t.shape.length - 2) (t.shape.length - 1))) ∧
    (t.shape.length < 2 →
      transpose t = Except.error "attempt to subtract with overflow") := by
  constructor
  · intro h
    unfold transpose
    rw [if_pos h]
  · intro h
    unfold transpose
    rw [if_neg (by omega)]

theorem c9_transpose_default_witness :
    (2 ≤ ([2, 3] : List Nat).length ∧
        transpose ⟨[2, 3], [1, 2, 3, 4, 5, 6]⟩ =
          Except.ok (swap_dims ⟨[2, 3], [1, 2, 3, 4, 5, 6]⟩ 0 1)) ∧
      (([3] : List Nat).length < 2 ∧
        transpose ⟨[3], [1, 2, 3]⟩ = Except.error "attempt to subtract with overflow") :=
  ⟨⟨by decide, (c9_transpose_default ⟨[2, 3], [1, 2, 3, 4, 5, 6]⟩).1 (by decide)⟩,
    ⟨by decide, (c9_transpose_default ⟨[3], [1, 2, 3]⟩).2 (by decide)⟩⟩

/-- C10: for `start ≤ stop` the default `arange` returns a rank-1 tensor
of shape `[stop - start]` whose element at position `i` is `start + i`;
for `stop < start` the unsigned length computation underflows and the
call fails rather than returning an empty tensor. -/
theorem c10_arange_default (start stop : Nat) :
    (start ≤ stop → ∃ t, arange start stop = Except.ok t ∧
      t.shape = [stop - start] ∧ t.valid ∧
      ∀ i, i < stop - start → t.get [i] = (start : Int) + i) ∧
    (stop < start →
      arange start stop = Except.error "attempt to subtract with overflow") := by
  constructor
  · intro h
    refine ⟨_, by unfold arange; rw [if_pos h], rfl, ?_, ?_⟩
    · simp [Tensor.valid]
    · intro i hi
      have hflat : flatten [stop - start] [i] = i := by
        simp [flatten]
      simp only [Tensor.get, hflat, List.getD_eq_getElem?_getD]
      rw [List.getElem?_map, List.getElem?_range (by simpa using hi)]
      push_cast
      simp
  · intro h
    unfold arange
    rw [if_neg (by omega)]

theorem c10_arange_default_witness :
    ((2 ≤ 5 ∧ ∃ t, arange 2 5 = Except.ok t ∧ t.shape = [5 - 2] ∧ t.valid ∧
        ∀ i, i < 5 - 2 → t.get [i] = (2 : Int) + i)) ∧
      (5 < 2 + 7 ∧ arange (2 + 7) 5 = Except.error "attempt to subtract with overflow") :=
  ⟨⟨by decide, (c10_arange_default 2 5).1 (by decide)⟩,
    ⟨by decide, (c10_arange_default (2 + 7) 5).2 (by decide)⟩⟩

theorem clearAt_other {grads : GradMap} {i k : Nat} (hk : k ≠ i) :
    clearAt grads i k = grads k := by
  simp [clearAt, hk]

theorem deliver_isSome {grads : GradMap} {k : Nat} (j : Nat) (t : Tensor)
    (h : (grads k).isSome = true) : ((deliver grads j t) k).isSome = true := by
  unfold deliver
  by_cases hk : k = j <;> simp [hk, h]

theorem deliverAll_isSome : ∀ (l : List (Nat × Tensor)) {grads : GradMap} {k : Nat},
    (grads k).isSome = true → ((deliverAll grads l) k).isSome = true := by
  intro l
  induction l with
  | nil => intro grads k h; exact h
  | cons p ps ih => intro grads k h; exact ih (deliver_isSome p.1 p.2 h)

theorem deliverAll_mem : ∀ (l : List (Nat × Tensor)) {grads : GradMap} {k : Nat},
    k ∈ l.map Prod.fst → ((deliverAll grads l) k).isSome = true := by
  intro l
  induction l with
  | nil => intro grads k h; simp at h
  | cons p ps ih =>
    intro grads k h
    rcases List.mem_cons.mp h with h1 | h2
    · subst h1
      exact deliverAll_isSome ps (by simp [deliver])
    · exact ih h2

theorem deliverAll_not_mem : ∀ (l : List (Nat × Tensor)) {grads : GradMap} {k : Nat},
    k ∉ l.map Prod.fst → (deliverAll grads l) k = grads k := by
  intro l
  induction l with
  | nil => intro grads k _; rfl
  | cons p ps ih =>
    intro grads k h
    simp only [List.map_cons, List.mem_cons, not_or] at h
    rw [show deliverAll grads (p :: ps) = deliverAll (deliver grads p.1 p.2) ps from rfl,
      ih (by simpa using h.2)]
    simp [deliver, h.1]

theorem backstep_targets (op : Op) (gout : Tensor) :
    (op.backstep gout).map Prod.fst = op.inputs := by
  cases op <;> rfl

theorem ne_leaf_of_mem_inputs {op : Op} {j : Nat} (h : j ∈ op.inputs) : op ≠ Op.leaf := by
  cases op <;> simp_all [Op.inputs]

theorem processNode_none {g : Graph} {i : Nat} {grads : GradMap}
    (h : grads i = none) : processNode g i grads = grads := by
  unfold processNode
  rw [h]

theorem processNode_leaf (g : Graph) (i : Nat) (grads : GradMap)
    (h : nodeAt g i = Op.leaf) : processNode g i grads = grads := by
  unfold processNode
  cases hgi : grads i with
  | none => rfl
  | some gi => rw [h]

theorem processNode_interior {g : Graph} {i : Nat} {grads : GradMap} {gi : Tensor}
    (hgi : grads i = some gi) (hop : nodeAt g i ≠ Op.leaf) :
    processNode g i grads = deliverAll (clearAt grads i) ((nodeAt g i).backstep gi) := by
  unfold processNode
  rw [hgi]
  cases h : nodeAt g i with
  | leaf => exact absurd h hop
  | neg a => rfl
  | addT a b => rfl
  | mulT a b x y => rfl
  | matmul a b x y => rfl

theorem processNode_keep {g : Graph} {i k : Nat} {grads : GradMap}
    (h : (grads k).isSome = true) (hk : k ≠ i) :
    ((processNode g i grads) k).isSome = true := by
  cases hgi : grads i with
  | none => rw [processNode_none hgi]; exact h
  | some gi =>
    by_cases hop : nodeAt g i = Op.leaf
    · rw [processNode_leaf _ _ _ hop]; exact h
    · rw [processNode_interior hgi hop]
      exact deliverAll_isSome _ (by rw [clearAt_other hk]; exact h)

theorem processNode_delivers {g : Graph} {i : Nat} {grads : GradMap} {gi : Tensor}
    (hgi : grads i = some gi) (hop : nodeAt g i ≠ Op.leaf) {j : Nat}
    (hj : j ∈ (nodeAt g i).inputs) : ((processNode g i grads) j).isSome = true := by
  rw [processNode_interior hgi hop]
  apply deliverAll_mem
  rw [backstep_targets]
  exact hj

theorem reachB_refl (g : Graph) (f root : Nat) : reachB g f root root = true := by
  cases f <;> simp [reachB]

theorem reachB_of_eq {g : Graph} {root j : Nat} (f : Nat) (h : root = j) :
    reachB g f root j = true := by
  subst h; exact reachB_refl g f root

theorem reachB_mono {g : Graph} :
    ∀ {f f' root j : Nat}, f ≤ f' → reachB g f root j = true →
      reachB g f' root j = true := by
  intro f
  induction f with
  | zero =>
    intro f' root j _ h
    simp only [reachB, beq_iff_eq] at h
    exact reachB_of_eq f' h
  | succ f ih =>
    intro f' root j hle h
    simp only [reachB, Bool.or_eq_true, beq_iff_eq, List.any_eq_true] at h
    rcases h with h | ⟨k, hk, hreach⟩
    · exact reachB_of_eq f' h
    · obtain ⟨f'', rfl⟩ : ∃ f'', f' = f'' + 1 := ⟨f' - 1, by omega⟩
      simp only [reachB, Bool.or_eq_true, List.any_eq_true]
      exact Or.inr ⟨k, hk, ih (by omega) hreach⟩

theorem reachB_succ_intro {g : Graph} {f root j k : Nat}
    (hk : k ∈ (nodeAt g root).inputs) (h : reachB g f k j = true) :
    reachB g (f + 1) root j = true := by
  have hany : ((nodeAt g root).inputs.any fun m => reachB g f m j) = true :=
    List.any_eq_true.mpr ⟨k, hk, h⟩
  show (root == j || (nodeAt g root).inputs.any fun m => reachB g f m j) = true
  rw [hany, Bool.or_true]

theorem reachB_step {g : Graph} :
    ∀ {f root i j : Nat}, reachB g f root i = true → j ∈ (nodeAt g i).inputs →
      reachB g (f + 1) root j = true := by
  intro f
  induction f with
  | zero =>
    intro root i j h hj
    simp only [reachB, beq_iff_eq] at h
    subst h
    exact reachB_succ_intro hj (reachB_refl g 0 j)
  | succ f ih =>
    intro root i j h hj
    simp only [reachB, Bool.or_eq_true, beq_iff_eq, List.any_eq_true] at h
    rcases h with h | ⟨k, hk, hreach⟩
    · subst h
      exact reachB_succ_intro hj (reachB_refl g (f + 1) j)
    · exact reachB_succ_intro hk (ih hreach hj)

theorem wellFormed_inputs_lt {g : Graph} (hwf : wellFormed g = true) {i j : Nat}
    (hj : j ∈ (nodeAt g i).inputs) : j < i := by
  by_cases hi : i < g.length
  · unfold wellFormed at hwf
    simp only [List.all_eq_true, List.mem_range, decide_eq_true_eq] at hwf
    exact hwf i hi j hj
  · have : nodeAt g i = Op.leaf := by
      unfold nodeAt
      exact List.getD_eq_default _ _ (by omega)
    rw [this] at hj
    simp [Op.inputs] at hj

theorem reachB_le {g : Graph} (hwf : wellFormed g = true) :
    ∀ {f root j : Nat}, reachB g f root j = true → j ≤ root := by
  intro f
  induction f with
  | zero =>
    intro root j h
    simp only [reachB, beq_iff_eq] at h
    omega
  | succ f ih =>
    intro root j h
    simp only [reachB, Bool.or_eq_true, beq_iff_eq, List.any_eq_true] at h
    rcases h with h | ⟨k, hk, hreach⟩
    · omega
    · have h1 := wellFormed_inputs_lt hwf hk
      have h2 := ih hreach
      omega

theorem reachB_saturate {g : Graph} (hwf : wellFormed g = true) :
    ∀ (root : Nat) {f j : Nat}, reachB g f root j = true →
      reachB g root root j = true := by
  intro root
  induction root using Nat.strong_induction_on with
  | _ root ih =>
    intro f j h
    cases f with
    | zero =>
      simp only [reachB, beq_iff_eq] at h
      exact reachB_of_eq root h
    | succ f =>
      simp only [reachB, Bool.or_eq_true, beq_iff_eq, List.any_eq_true] at h
      rcases h with h | ⟨k, hk, hreach⟩
      · exact reachB_of_eq root h
      · have hklt : k < root := wellFormed_inputs_lt hwf hk
        have h2 : reachB g k k j = true := ih k hklt hreach
        have h3 : reachB g (root - 1) k j = true := reachB_mono (by omega) h2
        obtain ⟨r, rfl⟩ : ∃ r, root = r + 1 := ⟨root - 1, by omega⟩
        simp only [reachB, Bool.or_eq_true, List.any_eq_true]
        exact Or.inr ⟨k, hk, by simpa using h3⟩

theorem participates_refl (g : Graph) (root : Nat) : participates g root root = true :=
  reachB_refl g root root

theorem participates_closure {g : Graph} (hwf : wellFormed g = true) {root i j : Nat}
    (hp : participates g root i = true) (hj : j ∈ (nodeAt g i).inputs) :
    participates g root j = true :=
  reachB_saturate hwf root (reachB_step hp hj)

theorem participates_le {g : Graph} (hwf : wellFormed g = true) {root j : Nat}
    (hp : participates g root j = true) : j ≤ root :=
  reachB_le hwf hp

theorem exists_parent {g : Graph} :
    ∀ {f root j : Nat}, reachB g f root j = true → j ≠ root →
      ∃ kk f', reachB g f' root kk = true ∧ j ∈ (nodeAt g kk).inputs := by
  intro f
  induction f with
  | zero =>
    intro root j h hne
    simp only [reachB, beq_iff_eq] at h
    omega
  | succ f ih =>
    intro root j h hne
    simp only [reachB, Bool.or_eq_true, beq_iff_eq, List.any_eq_true] at h
    rcases h with h | ⟨m, hm, hreach⟩
    · omega
    · by_cases hmj : j = m
      · subst hmj
        exact ⟨root, 0, reachB_refl g 0 root, hm⟩
      · obtain ⟨kk, f', hkk, hmem⟩ := ih hreach hmj
        refine ⟨kk, f' + 1, ?_, hmem⟩
        simp only [reachB, Bool.or_eq_true, List.any_eq_true]
        exact Or.inr ⟨m, hm, hkk⟩

theorem processNode_participates {g : Graph} (hwf : wellFormed g = true) {root : Nat}
    (grads : GradMap) (i : Nat)
    (hinv : ∀ k, (grads k).isSome = true → participates g root k = true) :
    ∀ k, ((processNode g i grads) k).isSome = true → participates g root k = true := by
  intro k hk
  cases hgi : grads i with
  | none => rw [processNode_none hgi] at hk; exact hinv k hk
  | some gi =>
    by_cases hop : nodeAt g i = Op.leaf
    · rw [processNode_leaf _ _ _ hop] at hk; exact hinv k hk
    · rw [processNode_interior hgi hop] at hk
      by_cases hmem : k ∈ ((nodeAt g i).backstep gi).map Prod.fst
      · rw [backstep_targets] at hmem
        exact participates_closure hwf (hinv i (by simp [hgi])) hmem
      · rw [deliverAll_not_mem _ hmem] at hk
        by_cases hki : k = i
        · subst hki; simp [clearAt] at hk
        · rw [clearAt_other hki] at hk; exact hinv k hk

theorem runDown_participates {g : Graph} (hwf : wellFormed g = true) {root : Nat} :
    ∀ (i : Nat) (grads : GradMap),
      (∀ k, (grads k).isSome = true → participates g root k = true) →
      ∀ k, ((runDown g i grads) k).isSome = true → participates g root k = true := by
  intro i
  induction i with
  | zero => intro grads hinv; exact processNode_participates hwf grads 0 hinv
  | succ i ih =>
    intro grads hinv
    exact ih _ (processNode_participates hwf grads (i + 1) hinv)

theorem backward_none_of_not_participates {g : Graph} (hwf : wellFormed g = true)
    {root j : Nat} (seed : Tensor) (h : participates g root j = false) :
    backward g root seed j = none := by
  have hinit : ∀ k, ((initGrads root seed) k).isSome = true →
      participates g root k = true := by
    intro k hk
    unfold initGrads at hk
    by_cases hkr : k = root
    · subst hkr; exact participates_refl g k
    · simp [hkr] at hk
  cases hres : backward g root seed j with
  | none => rfl
  | some t =>
    have := runDown_participates hwf root (initGrads root seed) hinit j
      (by unfold backward at hres; simp [hres])
    rw [h] at this
    cases this

theorem grads_isSome_of_participates {g : Graph} (hwf : wellFormed g = true)
    {root i : Nat} {grads : GradMap}
    (H1 : ∀ j, j ≤ i → participates g root j = true →
      (grads j).isSome = true ∨
        ∃ kk, participates g root kk = true ∧ j ∈ (nodeAt g kk).inputs ∧ kk ≤ i)
    (hp : participates g root i = true) : (grads i).isSome = true := by
  rcases H1 i (Nat.le_refl i) hp with h | ⟨kk, _, hmem, hkk⟩
  · exact h
  · exact absurd (wellFormed_inputs_lt hwf hmem) (by omega)

theorem isLeafAt_iff {g : Graph} {i : Nat} :
    isLeafAt g i = true ↔ nodeAt g i = Op.leaf := by
  simp [isLeafAt]

theorem runDown_leaf_some {g : Graph} (hwf : wellFormed g = true) (root : Nat) :
    ∀ (i : Nat) (grads : GradMap),
      (∀ j, j ≤ i → participates g root j = true →
        (grads j).isSome = true ∨
          ∃ kk, participates g root kk = true ∧ j ∈ (nodeAt g kk).inputs ∧ kk ≤ i) →
      (∀ j, participates g root j = true → isLeafAt g j = true → i < j →
        (grads j).isSome = true) →
      ∀ j, participates g root j = true → isLeafAt g j = true →
        ((runDown g i grads) j).isSome = true := by
  intro i
  induction i with
  | zero =>
    intro grads H1 H2 j hp hleaf
    show ((processNode g 0 grads) j).isSome = true
    by_cases hj0 : j = 0
    · subst hj0
      rw [processNode_leaf _ _ _ (isLeafAt_iff.mp hleaf)]
      exact grads_isSome_of_participates hwf H1 hp
    · exact processNode_keep (H2 j hp hleaf (by omega)) hj0
  | succ i ih =>
    intro grads H1 H2 j hp hleaf
    show ((runDown g i (processNode g (i + 1) grads)) j).isSome = true
    refine ih (processNode g (i + 1) grads) ?_ ?_ j hp hleaf
    · intro j' hj' hp'
      rcases H1 j' (by omega) hp' with hsome | ⟨kk, hpkk, hmem, hkk⟩
      · exact Or.inl (processNode_keep hsome (by omega))
      · by_cases hkki : kk = i + 1
        · subst hkki
          have hgi : ((grads (i + 1))).isSome = true :=
            grads_isSome_of_participates hwf H1 hpkk
          obtain ⟨gi, hgi⟩ := Option.isSome_iff_exists.mp hgi
          exact Or.inl (processNode_delivers hgi
            (ne_leaf_of_mem_inputs hmem) hmem)
        · exact Or.inr ⟨kk, hpkk, hmem, by omega⟩
    · intro j' hp' hleaf' hj'
      by_cases hj : j' = i + 1
      · subst hj
        rw [processNode_leaf _ _ _ (isLeafAt_iff.mp hleaf')]
        exact grads_isSome_of_participates hwf H1 hp'
      · exact processNode_keep (H2 j' hp' hleaf' (by omega)) hj

/-- C7: querying the gradients container is an explicit `Option`: for
every identity that does not participate in the expression rooted at the
backward call the query returns `none` (a recoverable, branchable
outcome, not a fatal error), and for every leaf (input/parameter)
identity that does participate the query returns `some` gradient. -/
theorem c7_grad_query_optional (g : Graph) (root j : Nat) (seed : Tensor)
    (hwf : wellFormed g = true) :
    (participates g root j = false → gradQuery (backward g root seed) j = none) ∧
    (participates g root j = true → isLeafAt g j = true →
      (gradQuery (backward g root seed) j).isSome = true) := by
  constructor
  · intro h
    exact backward_none_of_not_participates hwf seed h
  · intro hp hleaf
    show ((runDown g root (initGrads root seed)) j).isSome = true
    refine runDown_leaf_some hwf root root (initGrads root seed) ?_ ?_ j hp hleaf
    · intro j' hj' hp'
      by_cases hroot : j' = root
      · subst hroot
        exact Or.inl (by simp [initGrads])
      · obtain ⟨kk, f', hkk, hmem⟩ := exists_parent hp' hroot
        have hpkk : participates g root kk = true := reachB_saturate hwf root hkk
        exact Or.inr ⟨kk, hpkk, hmem, participates_le hwf hpkk⟩
    · intro j' hp' _ hj'
      exact absurd (participates_le hwf hp') (by omega)

theorem c7_grad_query_optional_witness :
    (wellFormed [Op.leaf, Op.leaf, Op.neg 1, Op.neg 2] = true ∧
        participates [Op.leaf, Op.leaf, Op.neg 1, Op.neg 2] 3 0 = false ∧
        participates [Op.leaf, Op.leaf, Op.neg 1, Op.neg 2] 3 1 = true ∧
        isLeafAt [Op.leaf, Op.leaf, Op.neg 1, Op.neg 2] 1 = true) ∧
      gradQuery (backward [Op.leaf, Op.leaf, Op.neg 1, Op.neg 2] 3 (onesT [2])) 0 = none ∧
      (gradQuery
        (backward [Op.leaf, Op.leaf, Op.neg 1, Op.neg 2] 3 (onesT [2])) 1).isSome = true :=
  ⟨⟨by decide, by decide, by decide, by decide⟩,
    (c7_grad_query_optional [Op.leaf, Op.leaf, Op.neg 1, Op.neg 2] 3 0 (onesT [2])
      (by decide)).1 (by decide),
    (c7_grad_query_optional [Op.leaf, Op.leaf, Op.neg 1, Op.neg 2] 3 1 (onesT [2])
      (by decide)).2 (by decide) (by decide)⟩

theorem nodeAt_append_ge {g0 rest : Graph} {m : Nat} (h : g0.length ≤ m) :
    nodeAt (g0 ++ rest) m = nodeAt rest (m - g0.length) := by
  unfold nodeAt
  exact List.getD_append_right g0 rest Op.leaf m h

theorem reachB_ge_of_inputs_ge {g : Graph} {d : Nat}
    (hin : ∀ m, d ≤ m → ∀ j ∈ (nodeAt g m).inputs, d ≤ j) :
    ∀ {f root j : Nat}, d ≤ root → reachB g f root j = true → d ≤ j := by
  intro f
  induction f with
  | zero =>
    intro root j hroot h
    simp only [reachB, beq_iff_eq] at h
    omega
  | succ f ih =>
    intro root j hroot h
    simp only [reachB, Bool.or_eq_true, beq_iff_eq, List.any_eq_true] at h
    rcases h with h | ⟨k, hk, hreach⟩
    · omega
    · exact ih (hin root hroot k hk) hreach

/-- C4: `detach` appends a brand-new leaf node with no recorded inputs
(first two conjuncts), and for any further nodes built only on the
detached node or later identities, a backward pass from any root at or
after the detach point delivers no gradient to any identity upstream of
the detach point — gradients never flow through a detached node. -/
theorem c4_detach_blocks_gradient_flow (g0 extra : Graph) (seed : Tensor)
    (root j : Nat)
    (hwf : wellFormed ((detach g0).1 ++ extra) = true)
    (hextra : ∀ op ∈ extra, ∀ i ∈ Op.inputs op, (detach g0).2 ≤ i)
    (hroot : (detach g0).2 ≤ root)
    (hj : j < (detach g0).2) :
    nodeAt ((detach g0).1 ++ extra) (detach g0).2 = Op.leaf ∧
    Op.inputs (nodeAt ((detach g0).1 ++ extra) (detach g0).2) = [] ∧
    gradQuery (backward ((detach g0).1 ++ extra) root seed) j = none := by
  have hassoc : (detach g0).1 ++ extra = g0 ++ (Op.leaf :: extra) := by
    show (g0 ++ [Op.leaf]) ++ extra = g0 ++ (Op.leaf :: extra)
    rw [List.append_assoc]
    rfl
  have hd : (detach g0).2 = g0.length := rfl
  have hleaf : nodeAt ((detach g0).1 ++ extra) (detach g0).2 = Op.leaf := by
    rw [hassoc, hd, nodeAt_append_ge (Nat.le_refl _), Nat.sub_self]
    rfl
  refine ⟨hleaf, by rw [hleaf]; rfl, ?_⟩
  have hin : ∀ m, g0.length ≤ m →
      ∀ i ∈ (nodeAt (g0 ++ (Op.leaf :: extra)) m).inputs, g0.length ≤ i := by
    intro m hm i hi
    rw [nodeAt_append_ge hm] at hi
    rcases Nat.lt_or_ge (m - g0.length) (Op.leaf :: extra).length with hlt | hge
    · have hmem : nodeAt (Op.leaf :: extra) (m - g0.length) ∈ Op.leaf :: extra := by
        unfold nodeAt
        rw [List.getD_eq_getElem?_getD, List.getElem?_eq_getElem hlt]
        exact List.getElem_mem _
      rcases List.mem_cons.mp hmem with hc | hc
      · rw [hc] at hi
        simp [Op.inputs] at hi
      · exact hextra _ hc i hi
    · have : nodeAt (Op.leaf :: extra) (m - g0.length) = Op.leaf := by
        unfold nodeAt
        exact List.getD_eq_default _ _ hge
      rw [this] at hi
      simp [Op.inputs] at hi
  have hnp : participates ((detach g0).1 ++ extra) root j = false := by
    cases hq : participates ((detach g0).1 ++ extra) root j with
    | false => rfl
    | true =>
      have hge : g0.length ≤ j := by
        rw [hassoc] at hq
        exact reachB_ge_of_inputs_ge hin hroot hq
      rw [hd] at hj
      omega
  exact backward_none_of_not_participates hwf seed hnp

theorem c4_detach_blocks_gradient_flow_witness :
    (wellFormed ((detach [Op.leaf, Op.neg 0]).1 ++ [Op.neg 2]) = true ∧
        (∀ op ∈ [Op.neg 2], ∀ i ∈ Op.inputs op, (detach [Op.leaf, Op.neg 0]).2 ≤ i) ∧
        (detach [Op.leaf, Op.neg 0]).2 ≤ 3 ∧
        1 < (detach [Op.leaf, Op.neg 0]).2) ∧
      nodeAt ((detach [Op.leaf, Op.neg 0]).1 ++ [Op.neg 2])
          (detach [Op.leaf, Op.neg 0]).2 = Op.leaf ∧
      Op.inputs (nodeAt ((detach [Op.leaf, Op.neg 0]).1 ++ [Op.neg 2])
          (detach [Op.leaf, Op.neg 0]).2) = [] ∧
      gradQuery (backward ((detach [Op.leaf, Op.neg 0]).1 ++ [Op.neg 2]) 3 (onesT [2])) 1
        = none :=
  ⟨⟨by decide, by decide, by decide, by decide⟩,
    c4_detach_blocks_gradient_flow [Op.leaf, Op.neg 0] [Op.neg 2] (onesT [2]) 3 1
      (by decide) (by decide) (by decide) (by decide)⟩

theorem addRowAt_length (acc : List Int) (d v : Nat) (row : List Int) :
    (addRowAt acc d v row).length = acc.length := by
  simp [addRowAt]

theorem addRowAt_getD {acc : List Int} {d v q : Nat} (row : List Int)
    (hq : q < acc.length) :
    (addRowAt acc d v row).getD q 0 =
      if v * d ≤ q ∧ q < v * d + d then acc.getD q 0 + row.getD (q - v * d) 0
      else acc.getD q 0 := by
  unfold addRowAt
  rw [List.getD_eq_getElem?_getD, List.getElem?_map, List.getElem?_range hq]
  simp only [Option.map_some', Option.getD_some]

theorem row_range_iff {v r c d : Nat} (hc : c < d) :
    (v * d ≤ r * d + c ∧ r * d + c < v * d + d) ↔ v = r := by
  constructor
  · rintro ⟨h1, h2⟩
    by_contra hne
    rcases Nat.lt_or_ge v r with h | h
    · have h3 : (v + 1) * d ≤ r * d := mul_le_mul_right' (by omega) d
      have h4 : (v + 1) * d = v * d + d := by ring
      omega
    · have hvr : r < v := by omega
      have h3 : (r + 1) * d ≤ v * d := mul_le_mul_right' (by omega) d
      have h4 : (r + 1) * d = r * d + d := by ring
      omega
  · rintro rfl
    omega

theorem rowcol_lt {r c n d : Nat} (hr : r < n) (hc : c < d) : r * d + c < n * d := by
  have h3 : (r + 1) * d ≤ n * d := mul_le_mul_right' (by omega) d
  have h4 : (r + 1) * d = r * d + d := by ring
  omega

theorem getD_replicate_zero (m q : Nat) : (List.replicate m (0 : Int)).getD q 0 = 0 := by
  rw [List.getD_eq_getElem?_getD, List.getElem?_replicate]
  split <;> rfl

theorem scatter_ones_count {d n L : Nat} {gdata : List Int}
    (hone : ∀ p cc, p < L → cc < d → gdata.getD (p * d + cc) 0 = 1) :
    ∀ (l : List Nat) (s : Nat) (acc : List Int) (r c : Nat),
      r < n → c < d → acc.length = n * d → s + l.length ≤ L →
      ((List.enumFrom s l).foldl
          (fun acc2 pv => addRowAt acc2 d pv.2
            ((List.range d).map fun cc => gdata.getD (pv.1 * d + cc) 0))
          acc).getD (r * d + c) 0 =
        acc.getD (r * d + c) 0 + (l.count r : Int) := by
  intro l
  induction l with
  | nil =>
    intro s acc r c _ _ _ _
    simp
  | cons v vs ih =>
    intro s acc r c hr hc hacc hs
    rw [show List.enumFrom s (v :: vs) = (s, v) :: List.enumFrom (s + 1) vs from rfl,
      List.foldl_cons]
    rw [ih (s + 1) _ r c hr hc (by rw [addRowAt_length]; exact hacc)
      (by simp only [List.length_cons] at hs; omega)]
    have hq : r * d + c < acc.length := by rw [hacc]; exact rowcol_lt hr hc
    rw [addRowAt_getD _ hq]
    by_cases hvr : v = r
    · have hcond : v * d ≤ r * d + c ∧ r * d + c < v * d + d := (row_range_iff hc).mpr hvr
      rw [if_pos hcond]
      have hsL : s < L := by simp only [List.length_cons] at hs; omega
      have hrow : ((List.range d).map fun cc => gdata.getD (s * d + cc) 0).getD
          (r * d + c - v * d) 0 = 1 := by
        have hsub : r * d + c - v * d = c := by rw [hvr]; omega
        rw [hsub, List.getD_eq_getElem?_getD, List.getElem?_map,
          List.getElem?_range (by simpa using hc)]
        simp only [Option.map_some', Option.getD_some]
        exact hone s c hsL hc
      rw [hrow]
      simp [List.count_cons, hvr]
      push_cast
      ring
    · have hcond : ¬(v * d ≤ r * d + c ∧ r * d + c < v * d + d) := by
        intro hcon
        exact hvr ((row_range_iff hc).mp hcon)
      rw [if_neg hcond]
      simp [List.count_cons, hvr]

/-- C5: for a 2-D weight tensor of shape `[n, d]` and any 2-D integer
index tensor, the forward `embedding` output has the 3-D shape
`indexes.shape ++ [d]`, and `embedding_backward` with an upstream
gradient of all ones of that shape produces a gradient shaped like the
weights in which every entry of row `r` equals the number of occurrences
of index value `r` in the index tensor — duplicate indices accumulate
their contributions rather than overwriting. -/
theorem c5_embedding_backward_counts (n d : Nat) (w : Tensor) (ix : IdxTensor)
    (r c : Nat) (hw : w.shape = [n, d]) (hix : ix.data.length = ix.shape.prod)
    (hvals : ∀ v ∈ ix.data, v < n) (hr : r < n) (hc : c < d) :
    (embedding w ix).shape = ix.shape ++ [d] ∧
      (embedding_backward w (onesT (ix.shape ++ [d])) ix).shape = w.shape ∧
      (embedding_backward w (onesT (ix.shape ++ [d])) ix).get [r, c] =
        (ix.data.count r : Int) := by
  obtain ⟨ws, wd⟩ := w
  change ws = [n, d] at hw
  subst hw
  refine ⟨by simp [embedding], rfl, ?_⟩
  have hL : (ix.shape ++ [d]).prod = ix.shape.prod * d := by simp
  have hflat : flatten [n, d] [r, c] = r * d + c := by
    simp [flatten]
  have hone : ∀ p cc, p < ix.shape.prod → cc < d →
      (List.replicate ((ix.shape ++ [d]).prod) (1 : Int)).getD (p * d + cc) 0 = 1 := by
    intro p cc hp hcc
    rw [List.getD_eq_getElem?_getD, List.getElem?_replicate,
      if_pos (by rw [hL]; exact rowcol_lt hp hcc)]
    rfl
  show ((List.enumFrom 0 ix.data).foldl
      (fun acc2 pv => addRowAt acc2 d pv.2
        ((List.range d).map fun cc =>
          (List.replicate ((ix.shape ++ [d]).prod) (1 : Int)).getD (pv.1 * d + cc) 0))
      (List.replicate (([n, d] : List Nat)).prod 0)).getD (flatten [n, d] [r, c]) 0 =
    (ix.data.count r : Int)
  rw [hflat, scatter_ones_count hone ix.data 0 _ r c hr hc (by simp) (by omega),
    getD_replicate_zero]
  simp

theorem c5_embedding_backward_counts_witness :
    (Tensor.shape ⟨[3, 2], [10, 20, 30, 40, 50, 60]⟩ = [3, 2] ∧
        (IdxTensor.data ⟨[2, 2], [1, 1, 0, 2]⟩).length =
          (IdxTensor.shape ⟨[2, 2], [1, 1, 0, 2]⟩).prod ∧
        (∀ v ∈ IdxTensor.data ⟨[2, 2], [1, 1, 0, 2]⟩, v < 3) ∧ 1 < 3 ∧ 0 < 2) ∧
      (embedding ⟨[3, 2], [10, 20, 30, 40, 50, 60]⟩ ⟨[2, 2], [1, 1, 0, 2]⟩).shape =
          IdxTensor.shape ⟨[2, 2], [1, 1, 0, 2]⟩ ++ [2] ∧
      (embedding_backward ⟨[3, 2], [10, 20, 30, 40, 50, 60]⟩
          (onesT (IdxTensor.shape ⟨[2, 2], [1, 1, 0, 2]⟩ ++ [2]))
          ⟨[2, 2], [1, 1, 0, 2]⟩).shape = Tensor.shape ⟨[3, 2], [10, 20, 30, 40, 50, 60]⟩ ∧
      (embedding_backward ⟨[3, 2], [10, 20, 30, 40, 50, 60]⟩
          (onesT (IdxTensor.shape ⟨[2, 2], [1, 1, 0, 2]⟩ ++ [2]))
          ⟨[2, 2], [1, 1, 0, 2]⟩).get [1, 0] =
        ((IdxTensor.data ⟨[2, 2], [1, 1, 0, 2]⟩).count 1 : Int) :=
  ⟨⟨by decide, by decide, by decide, by decide, by decide⟩,
    c5_embedding_backward_counts 3 2 ⟨[3, 2], [10, 20, 30, 40, 50, 60]⟩
      ⟨[2, 2], [1, 1, 0, 2]⟩ 1 0 (by decide) (by decide) (by decide) (by decide) (by decide)⟩

theorem deliver_other {grads : GradMap} {j k : Nat} (t : Tensor) (h : k ≠ j) :
    (deliver grads j t) k = grads k := by
  simp [deliver, h]

theorem runDown_eq_procCount (g : Graph) :
    ∀ (i : Nat) (grads : GradMap), runDown g i grads = procCount g i (i + 1) grads := by
  intro i
  induction i with
  | zero => intro grads; rfl
  | succ i ih =>
    intro grads
    rw [show runDown g (i + 1) grads = runDown g i (processNode g (i + 1) grads) from rfl,
      ih]
    rfl

theorem procCount_add (g : Graph) :
    ∀ (m : Nat) {hi n : Nat} {grads : GradMap},
      procCount g hi (m + n) grads = procCount g (hi - m) n (procCount g hi m grads) := by
  intro m
  induction m with
  | zero =>
    intro hi n grads
    rw [Nat.zero_add]
    rfl
  | succ m ih =>
    intro hi n grads
    rw [show m + 1 + n = (m + n) + 1 from by omega]
    rw [show procCount g hi ((m + n) + 1) grads =
      procCount g (hi - 1) (m + n) (processNode g hi grads) from rfl]
    rw [ih]
    rw [show procCount g hi (m + 1) grads =
      procCount g (hi - 1) m (processNode g hi grads) from rfl]
    rw [show hi - 1 - m = hi - (m + 1) from by omega]

theorem processNode_frame {g : Graph} {i t : Nat} {grads : GradMap}
    (ht : t ∉ (nodeAt g i).inputs) (hti : t ≠ i) :
    (processNode g i grads) t = grads t := by
  cases hgi : grads i with
  | none => rw [processNode_none hgi]
  | some gi =>
    by_cases hop : nodeAt g i = Op.leaf
    · rw [processNode_leaf _ _ _ hop]
    · rw [processNode_interior hgi hop,
        deliverAll_not_mem _ (by rw [backstep_targets]; exact ht), clearAt_other hti]

theorem procCount_frame {g : Graph} {t : Nat} (hleaf : isLeafAt g t = true) :
    ∀ (n : Nat) {hi : Nat} {grads : GradMap},
      (∀ m, hi + 1 - n ≤ m → m ≤ hi → t ∉ (nodeAt g m).inputs) →
      (procCount g hi n grads) t = grads t := by
  intro n
  induction n with
  | zero => intro hi grads _; rfl
  | succ n ih =>
    intro hi grads hm
    show (procCount g (hi - 1) n (processNode g hi grads)) t = grads t
    rw [ih (by intro m h1 h2; exact hm m (by omega) (by omega))]
    by_cases hti : t = hi
    · subst hti
      rw [processNode_leaf _ _ _ (isLeafAt_iff.mp hleaf)]
    · exact processNode_frame (hm hi (by omega) (Nat.le_refl _)) hti

theorem pending_init {g : Graph} (hwf : wellFormed g = true) (root : Nat) (seed : Tensor) :
    ∀ j, j ≤ root → participates g root j = true →
      ((initGrads root seed) j).isSome = true ∨
        ∃ k, participates g root k = true ∧ j ∈ (nodeAt g k).inputs ∧ k ≤ root := by
  intro j _ hp
  by_cases hroot : j = root
  · subst hroot
    exact Or.inl (by simp [initGrads])
  · obtain ⟨kk, f', hkk, hmem⟩ := exists_parent hp hroot
    have hpkk : participates g root kk = true := reachB_saturate hwf root hkk
    exact Or.inr ⟨kk, hpkk, hmem, participates_le hwf hpkk⟩

theorem pending_step {g : Graph} (hwf : wellFormed g = true) {root hi : Nat}
    {grads : GradMap} (hhi : 1 ≤ hi)
    (hP : ∀ j, j ≤ hi → participates g root j = true →
      (grads j).isSome = true ∨
        ∃ k, participates g root k = true ∧ j ∈ (nodeAt g k).inputs ∧ k ≤ hi) :
    ∀ j, j ≤ hi - 1 → participates g root j = true →
      ((processNode g hi grads) j).isSome = true ∨
        ∃ k, participates g root k = true ∧ j ∈ (nodeAt g k).inputs ∧ k ≤ hi - 1 := by
  intro j hj hp
  rcases hP j (by omega) hp with hsome | ⟨k, hpk, hmem, hk⟩
  · exact Or.inl (processNode_keep hsome (by omega))
  · by_cases hkhi : k = hi
    · subst hkhi
      have hsome : (grads k).isSome = true := grads_isSome_of_participates hwf hP hpk
      obtain ⟨gk, hgk⟩ := Option.isSome_iff_exists.mp hsome
      exact Or.inl (processNode_delivers hgk (ne_leaf_of_mem_inputs hmem) hmem)
    · exact Or.inr ⟨k, hpk, hmem, by omega⟩

theorem pending_iterate {g : Graph} (hwf : wellFormed g = true) {root : Nat} :
    ∀ (n : Nat) {hi : Nat} {grads : GradMap}, n ≤ hi →
      (∀ j, j ≤ hi → participates g root j = true →
        (grads j).isSome = true ∨
          ∃ k, participates g root k = true ∧ j ∈ (nodeAt g k).inputs ∧ k ≤ hi) →
      ∀ j, j ≤ hi - n → participates g root j = true →
        ((procCount g hi n grads) j).isSome = true ∨
          ∃ k, participates g root k = true ∧ j ∈ (nodeAt g k).inputs ∧ k ≤ hi - n := by
  intro n
  induction n with
  | zero => intro hi grads _ hP; exact hP
  | succ n ih =>
    intro hi grads hn hP
    have hstep := pending_step hwf (by omega) hP
    have hiter := ih (by omega) hstep
    intro j hj hp
    rcases hiter j (by omega) hp with h1 | ⟨k, hk1, hk2, hk3⟩
    · exact Or.inl h1
    · exact Or.inr ⟨k, hk1, hk2, by omega⟩

theorem deliveredTo_nil_of_count_zero : ∀ {l : List (Nat × Tensor)} {t : Nat},
    (l.map Prod.fst).count t = 0 → deliveredTo l t = [] := by
  intro l
  induction l with
  | nil => intro t _; rfl
  | cons p ps ih =>
    intro t h
    rw [List.map_cons] at h
    by_cases hpt : p.1 = t
    · simp [List.count_cons, hpt] at h
    · simp only [deliveredTo, List.filter_cons]
      rw [if_neg (by simpa using hpt)]
      refine ih ?_
      simp [List.count_cons, hpt] at h
      exact h

theorem not_mem_of_deliveredTo_nil : ∀ {l : List (Nat × Tensor)} {t : Nat},
    deliveredTo l t = [] → t ∉ l.map Prod.fst := by
  intro l
  induction l with
  | nil => intro t _; simp
  | cons p ps ih =>
    intro t h
    simp only [deliveredTo, List.filter_cons] at h
    by_cases hpt : p.1 = t
    · rw [if_pos (by simpa using hpt)] at h
      simp at h
    · rw [if_neg (by simpa using hpt)] at h
      simp only [List.map_cons, List.mem_cons, not_or]
      exact ⟨fun hh => hpt hh.symm, ih h⟩

theorem count_one_deliveredTo : ∀ {l : List (Nat × Tensor)} {t : Nat},
    (l.map Prod.fst).count t = 1 → ∃ c, deliveredTo l t = [c] := by
  intro l
  induction l with
  | nil => intro t h; simp at h
  | cons p ps ih =>
    intro t h
    rw [List.map_cons] at h
    by_cases hpt : p.1 = t
    · have h0 : (ps.map Prod.fst).count t = 0 := by
        simp [List.count_cons, hpt] at h
        omega
      refine ⟨p.2, ?_⟩
      simp only [deliveredTo, List.filter_cons]
      rw [if_pos (by simpa using hpt), List.map_cons]
      have htail : deliveredTo ps t = [] := deliveredTo_nil_of_count_zero h0
      simp only [deliveredTo] at htail
      rw [htail]
    · have h1 : (ps.map Prod.fst).count t = 1 := by
        simp [List.count_cons, hpt] at h
        exact h
      obtain ⟨c, hc⟩ := ih h1
      refine ⟨c, ?_⟩
      simp only [deliveredTo, List.filter_cons]
      rw [if_neg (by simpa using hpt)]
      exact hc

theorem deliverAll_single_none : ∀ (l : List (Nat × Tensor)) {grads : GradMap} {t : Nat}
    {c : Tensor}, grads t = none → deliveredTo l t = [c] →
    (deliverAll grads l) t = some c := by
  intro l
  induction l with
  | nil =>
    intro grads t c _ hd
    simp [deliveredTo] at hd
  | cons p ps ih =>
    intro grads t c hnone hd
    simp only [deliveredTo, List.filter_cons] at hd
    by_cases hpt : p.1 = t
    · rw [if_pos (by simpa using hpt), List.map_cons] at hd
      injection hd with h1 h2
      have hnotmem : t ∉ ps.map Prod.fst := not_mem_of_deliveredTo_nil h2
      show (deliverAll (deliver grads p.1 p.2) ps) t = some c
      rw [deliverAll_not_mem ps hnotmem]
      subst hpt
      simp [deliver, hnone, h1]
    · rw [if_neg (by simpa using hpt)] at hd
      show (deliverAll (deliver grads p.1 p.2) ps) t = some c
      refine ih ?_ hd
      rw [deliver_other p.2 (fun hh => hpt hh.symm)]
      exact hnone

theorem deliverAll_single_some : ∀ (l : List (Nat × Tensor)) {grads : GradMap} {t : Nat}
    {u c : Tensor}, grads t = some u → deliveredTo l t = [c] →
    (deliverAll grads l) t = some (tadd u c) := by
  intro l
  induction l with
  | nil =>
    intro grads t u c _ hd
    simp [deliveredTo] at hd
  | cons p ps ih =>
    intro grads t u c hu hd
    simp only [deliveredTo, List.filter_cons] at hd
    by_cases hpt : p.1 = t
    · rw [if_pos (by simpa using hpt), List.map_cons] at hd
      injection hd with h1 h2
      have hnotmem : t ∉ ps.map Prod.fst := not_mem_of_deliveredTo_nil h2
      show (deliverAll (deliver grads p.1 p.2) ps) t = some (tadd u c)
      rw [deliverAll_not_mem ps hnotmem]
      subst hpt
      simp [deliver, hu, h1]
    · rw [if_neg (by simpa using hpt)] at hd
      show (deliverAll (deliver grads p.1 p.2) ps) t = some (tadd u c)
      refine ih ?_ hd
      rw [deliver_other p.2 (fun hh => hpt hh.symm)]
      exact hu

theorem processNode_consumer_none {g : Graph} {i t : Nat} {grads : GradMap}
    {gi ca : Tensor} (hgi : grads i = some gi) (hmem : t ∈ (nodeAt g i).inputs)
    (hti : t ≠ i) (hnone : grads t = none)
    (hdel : deliveredTo ((nodeAt g i).backstep gi) t = [ca]) :
    (processNode g i grads) t = some ca := by
  rw [processNode_interior hgi (ne_leaf_of_mem_inputs hmem)]
  exact deliverAll_single_none _ (by rw [clearAt_other hti]; exact hnone) hdel

theorem processNode_consumer_some {g : Graph} {i t : Nat} {grads : GradMap}
    {gi u c : Tensor} (hgi : grads i = some gi) (hmem : t ∈ (nodeAt g i).inputs)
    (hti : t ≠ i) (hu : grads t = some u)
    (hdel : deliveredTo ((nodeAt g i).backstep gi) t = [c]) :
    (processNode g i grads) t = some (tadd u c) := by
  rw [processNode_interior hgi (ne_leaf_of_mem_inputs hmem)]
  exact deliverAll_single_some _ (by rw [clearAt_other hti]; exact hu) hdel

/-- C3: in every well-formed graph, when a leaf tensor `t` is consumed
exactly once each by two downstream operations `a` and `b` (and by no
other node), and both consumers participate in the expression rooted at
the backward call, the gradient recorded for `t`'s identity after the
pass equals the elementwise sum of the gradient contribution delivered
by `a` (the component of `a`'s backward function at `t`, evaluated at the
summed gradient `a` was actually processed with) and the gradient
contribution delivered by `b` — fan-out contributions accumulate, neither
one overwrites the other.  `b < a` fixes the naming of the two consumers
and loses no generality. -/
theorem c3_fanout_accumulates (g : Graph) (root t a b : Nat) (seed : Tensor)
    (hwf : wellFormed g = true)
    (hleaf : isLeafAt g t = true)
    (hba : b < a)
    (hat : ((nodeAt g a).inputs).count t = 1)
    (hbt : ((nodeAt g b).inputs).count t = 1)
    (hother : ∀ k, k < g.length → k ≠ a → k ≠ b → t ∉ (nodeAt g k).inputs)
    (hpa : participates g root a = true)
    (hpb : participates g root b = true) :
    ∃ ga gb ca cb,
      stateBefore g root seed a a = some ga ∧
      stateBefore g root seed b b = some gb ∧
      deliveredTo ((nodeAt g a).backstep ga) t = [ca] ∧
      deliveredTo ((nodeAt g b).backstep gb) t = [cb] ∧
      gradQuery (backward g root seed) t = some (tadd ca cb) := by
  have hta : t ∈ (nodeAt g a).inputs := by
    by_contra hcon
    rw [List.count_eq_zero_of_not_mem hcon] at hat
    omega
  have htb : t ∈ (nodeAt g b).inputs := by
    by_contra hcon
    rw [List.count_eq_zero_of_not_mem hcon] at hbt
    omega
  have hta_lt : t < a := wellFormed_inputs_lt hwf hta
  have htb_lt : t < b := wellFormed_inputs_lt hwf htb
  have ha_le : a ≤ root := participates_le hwf hpa
  have hother2 : ∀ m, m ≠ a → m ≠ b → t ∉ (nodeAt g m).inputs := by
    intro m h1 h2
    by_cases hm : m < g.length
    · exact hother m hm h1 h2
    · have hl : nodeAt g m = Op.leaf := by
        unfold nodeAt
        exact List.getD_eq_default _ _ (by omega)
      rw [hl]
      simp [Op.inputs]
  have hP1 : ∀ j, j ≤ a → participates g root j = true →
      ((procCount g root (root - a) (initGrads root seed)) j).isSome = true ∨
        ∃ k, participates g root k = true ∧ j ∈ (nodeAt g k).inputs ∧ k ≤ a := by
    have h := pending_iterate hwf (root - a) (by omega) (pending_init hwf root seed)
    intro j hj hp
    rcases h j (by omega) hp with h1 | ⟨k, hk1, hk2, hk3⟩
    · exact Or.inl h1
    · exact Or.inr ⟨k, hk1, hk2, by omega⟩
  obtain ⟨ga, hga⟩ := Option.isSome_iff_exists.mp
    (grads_isSome_of_participates hwf hP1 hpa)
  have hat2 : (((nodeAt g a).backstep ga).map Prod.fst).count t = 1 := by
    rw [backstep_targets]
    exact hat
  obtain ⟨ca, hca⟩ := count_one_deliveredTo hat2
  have hS1t : (procCount g root (root - a) (initGrads root seed)) t = none := by
    have hf : ∀ m, root + 1 - (root - a) ≤ m → m ≤ root → t ∉ (nodeAt g m).inputs := by
      intro m h1 h2
      exact hother2 m (by omega) (by omega)
    rw [procCount_frame hleaf (root - a) hf]
    unfold initGrads
    rw [if_neg (by omega)]
  have hS2t : (processNode g a (procCount g root (root - a) (initGrads root seed))) t =
      some ca :=
    processNode_consumer_none hga hta (by omega) hS1t hca
  have hPa1 := pending_step hwf (show 1 ≤ a by omega) hP1
  have hP2 : ∀ j, j ≤ b → participates g root j = true →
      ((procCount g (a - 1) (a - 1 - b)
          (processNode g a (procCount g root (root - a) (initGrads root seed)))) j).isSome
          = true ∨
        ∃ k, participates g root k = true ∧ j ∈ (nodeAt g k).inputs ∧ k ≤ b := by
    have h := pending_iterate hwf (a - 1 - b) (by omega) hPa1
    intro j hj hp
    rcases h j (by omega) hp with h1 | ⟨k, hk1, hk2, hk3⟩
    · exact Or.inl h1
    · exact Or.inr ⟨k, hk1, hk2, by omega⟩
  obtain ⟨gb, hgb⟩ := Option.isSome_iff_exists.mp
    (grads_isSome_of_participates hwf hP2 hpb)
  have hbt2 : (((nodeAt g b).backstep gb).map Prod.fst).count t = 1 := by
    rw [backstep_targets]
    exact hbt
  obtain ⟨cb, hcb⟩ := count_one_deliveredTo hbt2
  have hS3t : (procCount g (a - 1) (a - 1 - b)
      (processNode g a (procCount g root (root - a) (initGrads root seed)))) t =
      some ca := by
    have hf : ∀ m, (a - 1) + 1 - (a - 1 - b) ≤ m → m ≤ a - 1 →
        t ∉ (nodeAt g m).inputs := by
      intro m h1 h2
      exact hother2 m (by omega) (by omega)
    rw [procCount_frame hleaf (a - 1 - b) hf]
    exact hS2t
  have hS4t : (processNode g b
      (procCount g (a - 1) (a - 1 - b)
        (processNode g a (procCount g root (root - a) (initGrads root seed))))) t =
      some (tadd ca cb) :=
    processNode_consumer_some hgb htb (by omega) hS3t hcb
  have hfinal : (procCount g (b - 1) b
      (processNode g b
        (procCount g (a - 1) (a - 1 - b)
          (processNode g a (procCount g root (root - a) (initGrads root seed)))))) t =
      some (tadd ca cb) := by
    have hf : ∀ m, (b - 1) + 1 - b ≤ m → m ≤ b - 1 → t ∉ (nodeAt g m).inputs := by
      intro m h1 h2
      exact hother2 m (by omega) (by omega)
    rw [procCount_frame hleaf b hf]
    exact hS4t
  have hsplit1 : backward g root seed =
      procCount g a (a + 1) (procCount g root (root - a) (initGrads root seed)) := by
    have h : procCount g root ((root - a) + (a + 1)) (initGrads root seed) =
        procCount g (root - (root - a)) (a + 1)
          (procCount g root (root - a) (initGrads root seed)) :=
      procCount_add g (root - a)
    rw [show (root - a) + (a + 1) = root + 1 from by omega,
      show root - (root - a) = a from by omega] at h
    show runDown g root (initGrads root seed) = _
    rw [runDown_eq_procCount g root (initGrads root seed)]
    exact h
  have hmain : procCount g (a - 1) a
        (processNode g a (procCount g root (root - a) (initGrads root seed))) =
      procCount g b (b + 1)
        (procCount g (a - 1) (a - 1 - b)
          (processNode g a (procCount g root (root - a) (initGrads root seed)))) := by
    have h : procCount g (a - 1) ((a - 1 - b) + (b + 1))
          (processNode g a (procCount g root (root - a) (initGrads root seed))) =
        procCount g ((a - 1) - (a - 1 - b)) (b + 1)
          (procCount g (a - 1) (a - 1 - b)
            (processNode g a (procCount g root (root - a) (initGrads root seed)))) :=
      procCount_add g (a - 1 - b)
    rw [show (a - 1 - b) + (b + 1) = a from by omega,
      show (a - 1) - (a - 1 - b) = b from by omega] at h
    exact h
  have hsb : stateBefore g root seed b =
      procCount g (a - 1) (a - 1 - b)
        (processNode g a (procCount g root (root - a) (initGrads root seed))) := by
    have h : procCount g root ((root - a) + ((a - 1 - b) + 1)) (initGrads root seed) =
        procCount g (root - (root - a)) ((a - 1 - b) + 1)
          (procCount g root (root - a) (initGrads root seed)) :=
      procCount_add g (root - a)
    rw [show root - (root - a) = a from by omega] at h
    show procCount g root (root - b) (initGrads root seed) = _
    rw [show root - b = (root - a) + ((a - 1 - b) + 1) from by omega, h]
    rfl
  refine ⟨ga, gb, ca, cb, ?_, ?_, hca, hcb, ?_⟩
  · show procCount g root (root - a) (initGrads root seed) a = some ga
    exact hga
  · rw [hsb]
    exact hgb
  · show (backward g root seed) t = some (tadd ca cb)
    rw [hsplit1]
    show procCount g (a - 1) a
        (processNode g a (procCount g root (root - a) (initGrads root seed))) t =
      some (tadd ca cb)
    rw [hmain]
    show procCount g (b - 1) b
        (processNode g b
          (procCount g (a - 1) (a - 1 - b)
            (processNode g a (procCount g root (root - a) (initGrads root seed))))) t =
      some (tadd ca cb)
    exact hfinal

theorem c3_fanout_accumulates_witness :
    (wellFormed
          [Op.leaf, Op.leaf, Op.leaf, Op.mulT 0 1 ⟨[2], [5, 6]⟩ ⟨[2], [7, 8]⟩,
            Op.mulT 0 2 ⟨[2], [5, 6]⟩ ⟨[2], [9, 10]⟩, Op.addT 3 4] = true ∧
        isLeafAt
          [Op.leaf, Op.leaf, Op.leaf, Op.mulT 0 1 ⟨[2], [5, 6]⟩ ⟨[2], [7, 8]⟩,
            Op.mulT 0 2 ⟨[2], [5, 6]⟩ ⟨[2], [9, 10]⟩, Op.addT 3 4] 0 = true ∧
        3 < 4 ∧
        ((nodeAt
          [Op.leaf, Op.leaf, Op.leaf, Op.mulT 0 1 ⟨[2], [5, 6]⟩ ⟨[2], [7, 8]⟩,
            Op.mulT 0 2 ⟨[2], [5, 6]⟩ ⟨[2], [9, 10]⟩, Op.addT 3 4] 4).inputs).count 0 = 1 ∧
        ((nodeAt
          [Op.leaf, Op.leaf, Op.leaf, Op.mulT 0 1 ⟨[2], [5, 6]⟩ ⟨[2], [7, 8]⟩,
            Op.mulT 0 2 ⟨[2], [5, 6]⟩ ⟨[2], [9, 10]⟩, Op.addT 3 4] 3).inputs).count 0 = 1 ∧
        (∀ k, k <
            (List.length
              [Op.leaf, Op.leaf, Op.leaf, Op.mulT 0 1 ⟨[2], [5, 6]⟩ ⟨[2], [7, 8]⟩,
                Op.mulT 0 2 ⟨[2], [5, 6]⟩ ⟨[2], [9, 10]⟩, Op.addT 3 4]) →
          k ≠ 4 → k ≠ 3 →
          0 ∉ (nodeAt
            [Op.leaf, Op.leaf, Op.leaf, Op.mulT 0 1 ⟨[2], [5, 6]⟩ ⟨[2], [7, 8]⟩,
              Op.mulT 0 2 ⟨[2], [5, 6]⟩ ⟨[2], [9, 10]⟩, Op.addT 3 4] k).inputs) ∧
        participates
          [Op.leaf, Op.leaf, Op.leaf, Op.mulT 0 1 ⟨[2], [5, 6]⟩ ⟨[2], [7, 8]⟩,
            Op.mulT 0 2 ⟨[2], [5, 6]⟩ ⟨[2], [9, 10]⟩, Op.addT 3 4] 5 4 = true ∧
        participates
          [Op.leaf, Op.leaf, Op.leaf, Op.mulT 0 1 ⟨[2], [5, 6]⟩ ⟨[2], [7, 8]⟩,
            Op.mulT 0 2 ⟨[2], [5, 6]⟩ ⟨[2], [9, 10]⟩, Op.addT 3 4] 5 3 = true) ∧
      (∃ ga gb ca cb,
        stateBefore
          [Op.leaf, Op.leaf, Op.leaf, Op.mulT 0 1 ⟨[2], [5, 6]⟩ ⟨[2], [7, 8]⟩,
            Op.mulT 0 2 ⟨[2], [5, 6]⟩ ⟨[2], [9, 10]⟩, Op.addT 3 4] 5 ⟨[2], [1, 1]⟩ 4 4 =
          some ga ∧
        stateBefore
          [Op.leaf, Op.leaf, Op.leaf, Op.mulT 0 1 ⟨[2], [5, 6]⟩ ⟨[2], [7, 8]⟩,
            Op.mulT 0 2 ⟨[2], [5, 6]⟩ ⟨[2], [9, 10]⟩, Op.addT 3 4] 5 ⟨[2], [1, 1]⟩ 3 3 =
          some gb ∧
        deliveredTo
          ((nodeAt
            [Op.leaf, Op.leaf, Op.leaf, Op.mulT 0 1 ⟨[2], [5, 6]⟩ ⟨[2], [7, 8]⟩,
              Op.mulT 0 2 ⟨[2], [5, 6]⟩ ⟨[2], [9, 10]⟩, Op.addT 3 4] 4).backstep ga) 0 =
          [ca] ∧
        deliveredTo
          ((nodeAt
            [Op.leaf, Op.leaf, Op.leaf, Op.mulT 0 1 ⟨[2], [5, 6]⟩ ⟨[2], [7, 8]⟩,
              Op.mulT 0 2 ⟨[2], [5, 6]⟩ ⟨[2], [9, 10]⟩, Op.addT 3 4] 3).backstep gb) 0 =
          [cb] ∧
        gradQuery
          (backward
            [Op.leaf, Op.leaf, Op.leaf, Op.mulT 0 1 ⟨[2], [5, 6]⟩ ⟨[2], [7, 8]⟩,
              Op.mulT 0 2 ⟨[2], [5, 6]⟩ ⟨[2], [9, 10]⟩, Op.addT 3 4] 5 ⟨[2], [1, 1]⟩) 0 =
          some (tadd ca cb)) :=
  ⟨⟨by decide, by decide, by decide, by decide, by decide, by decide, by decide, by decide⟩,
    c3_fanout_accumulates
      [Op.leaf, Op.leaf, Op.leaf, Op.mulT 0 1 ⟨[2], [5, 6]⟩ ⟨[2], [7, 8]⟩,
        Op.mulT 0 2 ⟨[2], [5, 6]⟩ ⟨[2], [9, 10]⟩, Op.addT 3 4] 5 0 4 3 ⟨[2], [1, 1]⟩
      (by decide) (by decide) (by decide) (by decide) (by decide) (by decide)
      (by decide) (by decide)⟩

end Burn
